import Mathlib

/-!
Verification of the Design Time Solver of the ephemeris service.

The development shallowly embeds the angular arithmetic of
`app/core/angle.py`, the bisection endpoint of
`app/api/routes_design_time.py`, the error surface of
`app/core/errors.py`, and the ephemeris-path initialization guard of
`app/core/swe.py`.

Modelling conventions:
- Python floats are modelled as exact rationals (`ℚ`); Python's `%` on
  floats (result carries the sign of the divisor) is `pymod` below,
  defined through the integer floor of the quotient.
- The external ephemeris oracle `calculate_sun_position` is a parameter
  of type `ℚ → Except String ℚ`: `.error msg` models the Python call
  raising an exception whose `str` is `msg`.
- Every oracle call is recorded in an explicit query log (a `List ℚ` of
  the queried Julian instants) threaded through the solver, so that
  query counts and queried instants can be stated.
- Interpolated numeric values inside Python f-string error messages are
  elided; the fixed message prefixes are kept.  The `details` dict of
  error payloads is elided as well: claims about the error surface
  concern the error code and HTTP status.
-/

/-- Python `x % y` for floats (sign of the divisor), used by
`normalize_angle`: `x - y * floor (x / y)`. -/
def pymod (x y : ℚ) : ℚ := x - y * ⌊x / y⌋

/-- `app/core/angle.py::normalize_angle`: normalize an angle to [0, 360). -/
def normalize_angle (angle : ℚ) : ℚ :=
  let normalized := pymod angle 360
  if normalized < 0 then normalized + 360 else normalized

/-- `app/core/angle.py::angle_difference`: shortest signed angular
difference, in [-180, 180]. -/
def angle_difference (angle1 angle2 : ℚ) : ℚ :=
  let diff := normalize_angle angle1 - normalize_angle angle2
  if diff > 180 then diff - 360
  else if diff < -180 then diff + 360
  else diff

/-- `app/core/angle.py::angle_within_tolerance`. -/
def angle_within_tolerance (angle1 angle2 tolerance : ℚ) : Bool :=
  |angle_difference angle1 angle2| ≤ tolerance

/- ### Data model (`app/models/requests.py`, `app/models/responses.py`) -/

/-- `app/models/requests.py::SearchWindowDays`: integer day offsets
before birth (pydantic additionally validates both as nonnegative). -/
structure SearchWindowDays where
  min : ℤ
  max : ℤ
deriving DecidableEq

/-- `app/models/requests.py::DesignTimeRequest`.  Pydantic validates
`birth_jd_ut ≥ 0`, `tolerance_deg > 0` and `max_iter > 0`; those bounds
appear as hypotheses where a claim needs them. -/
structure DesignTimeRequest where
  birth_jd_ut : ℚ
  sun_offset_deg : ℚ
  search_window_days : SearchWindowDays
  tolerance_deg : ℚ
  max_iter : ℕ
deriving DecidableEq

/-- `app/models/responses.py::DesignTimeResponse`. -/
structure DesignTimeResponse where
  birth_jd_ut : ℚ
  design_jd_ut : ℚ
  target_sun_lon : ℚ
  achieved_sun_lon : ℚ
  delta_deg : ℚ
  iterations : ℕ
deriving DecidableEq

/- ### Error surface (`app/core/errors.py`) -/

def ErrorCode.BAD_REQUEST : String := "bad_request"

def ErrorCode.UNAUTHORIZED : String := "unauthorized"

def ErrorCode.NO_CONVERGENCE : String := "no_convergence"

def ErrorCode.INTERNAL_ERROR : String := "internal_error"

/-- The typed error outcomes raised by the helpers of
`app/core/errors.py` (`raise_bad_request`, `raise_unauthorized`,
`raise_no_convergence`, `raise_internal_error`).  Interpolated numbers
and the `details` payload of the Python messages are elided. -/
inductive ApiError where
  | badRequest (message : String)
  | unauthorized (message : String)
  | noConvergence (message : String)
  | internalError (message : String)
deriving DecidableEq

/-- The `error.code` field each raise helper attaches. -/
def ApiError.code : ApiError → String
  | .badRequest _ => ErrorCode.BAD_REQUEST
  | .unauthorized _ => ErrorCode.UNAUTHORIZED
  | .noConvergence _ => ErrorCode.NO_CONVERGENCE
  | .internalError _ => ErrorCode.INTERNAL_ERROR

/-- The HTTP status each raise helper uses. -/
def ApiError.status : ApiError → ℕ
  | .badRequest _ => 400
  | .unauthorized _ => 401
  | .noConvergence _ => 422
  | .internalError _ => 500

/-- Fixed message of the invalid-window rejection (line 40-42 of
`routes_design_time.py`). -/
def windowErrMsg : String :=
  "search_window_days.min must be less than search_window_days.max"

/-- Wrapper for an oracle failure at the birth instant (line 49). -/
def birthErrMsg (msg : String) : String :=
  "Error calculating birth Sun position: " ++ msg

/-- Wrapper for an oracle failure at the small-window candidate (line 74). -/
def designErrMsg (msg : String) : String :=
  "Error calculating design Sun position: " ++ msg

/-- Wrapper for an oracle failure at the midpoint (line 87). -/
def midErrMsg (msg : String) : String :=
  "Error calculating mid Sun position: " ++ msg

/-- Message of the exhausted-budget non-convergence report (line 109);
the interpolated iteration count is elided. -/
def noConvIterMsg : String := "Failed to find design time within max_iter iterations"

/-- Message of the final-delta non-convergence report (line 124);
interpolated delta and tolerance are elided. -/
def noConvDeltaMsg : String := "Failed to achieve tolerance"

/- ### The Design Time Solver (`app/api/routes_design_time.py`) -/

/-- The oracle interface (`app/core/swe.py::calculate_sun_position`
seen as a black box): Julian instant to ecliptic longitude, `.error msg`
modelling a raised exception with text `msg`. -/
abbrev SunOracle : Type := ℚ → Except String ℚ

/-- The fixed numeric floor of the bisection (`1e-6` days, line 68). -/
def numericFloor : ℚ := 1 / 1000000

/-- Outcome of one pass through the `while` body of
`calculate_design_time_endpoint`: an oracle failure, a `break` with
`design_jd_ut` and `achieved_sun_lon` set, or fall-through to the next
iteration with updated state. -/
inductive StepOut where
  | oracleFail (message : String)
  | brk (design_jd_ut achieved_sun_lon : ℚ)
  | next (search_start_jd search_end_jd : ℚ)
      (design_jd_ut achieved_sun_lon : Option ℚ)
deriving DecidableEq

/-- The midpoint part of the loop body (lines 80-104): query the oracle
at the midpoint, break on convergence, otherwise halve the window toward
the target. -/
def midStep (oracle : SunOracle) (target_sun_lon tolerance_deg : ℚ)
    (search_start_jd search_end_jd : ℚ)
    (design_jd_ut achieved_sun_lon : Option ℚ) (log : List ℚ) :
    StepOut × List ℚ :=
  let mid_jd := (search_start_jd + search_end_jd) / 2
  match oracle mid_jd with
  | .error msg => (.oracleFail (midErrMsg msg), log ++ [mid_jd])
  | .ok lon =>
    let mid_sun_lon := normalize_angle lon
    let diff := angle_difference mid_sun_lon target_sun_lon
    if |diff| ≤ tolerance_deg then
      (.brk mid_jd mid_sun_lon, log ++ [mid_jd])
    else if diff > 0 then
      (.next search_start_jd mid_jd design_jd_ut achieved_sun_lon, log ++ [mid_jd])
    else
      (.next mid_jd search_end_jd design_jd_ut achieved_sun_lon, log ++ [mid_jd])

/-- One full pass through the `while` body (lines 63-104): the
small-window branch first (lines 66-78, which either breaks or falls
through with `design_jd_ut`/`achieved_sun_lon` assigned), then the
midpoint step. -/
def iterStep (oracle : SunOracle) (target_sun_lon tolerance_deg : ℚ)
    (search_start_jd search_end_jd : ℚ)
    (design_jd_ut achieved_sun_lon : Option ℚ) (log : List ℚ) :
    StepOut × List ℚ :=
  if search_end_jd - search_start_jd < numericFloor then
    let candidate_jd := (search_start_jd + search_end_jd) / 2
    match oracle candidate_jd with
    | .error msg => (.oracleFail (designErrMsg msg), log ++ [candidate_jd])
    | .ok lon =>
      let achieved := normalize_angle lon
      if angle_within_tolerance achieved target_sun_lon tolerance_deg then
        (.brk candidate_jd achieved, log ++ [candidate_jd])
      else
        midStep oracle target_sun_lon tolerance_deg search_start_jd search_end_jd
          (some candidate_jd) (some achieved) (log ++ [candidate_jd])
  else
    midStep oracle target_sun_lon tolerance_deg search_start_jd search_end_jd
      design_jd_ut achieved_sun_lon log

/-- Loop state on exit: the Python locals `iterations`,
`search_start_jd`, `search_end_jd`, `design_jd_ut`, `achieved_sun_lon`. -/
structure LoopResult where
  iterations : ℕ
  search_start_jd : ℚ
  search_end_jd : ℚ
  design_jd_ut : Option ℚ
  achieved_sun_lon : Option ℚ
deriving DecidableEq

/-- The `while iterations < request.max_iter` loop, with the remaining
iteration budget as structural fuel. -/
def solverLoop (oracle : SunOracle) (target_sun_lon tolerance_deg : ℚ) :
    ℕ → ℕ → ℚ → ℚ → Option ℚ → Option ℚ → List ℚ →
    Except String LoopResult × List ℚ
  | 0, iterations, s, e, d, a, log => (.ok ⟨iterations, s, e, d, a⟩, log)
  | fuel + 1, iterations, s, e, d, a, log =>
    match iterStep oracle target_sun_lon tolerance_deg s e d a log with
    | (.oracleFail msg, log2) => (.error msg, log2)
    | (.brk dv av, log2) => (.ok ⟨iterations + 1, s, e, some dv, some av⟩, log2)
    | (.next s2 e2 d2 a2, log2) =>
      solverLoop oracle target_sun_lon tolerance_deg fuel (iterations + 1) s2 e2 d2 a2 log2

/-- `app/api/routes_design_time.py::calculate_design_time_endpoint`,
parameterized by the Sun-position oracle.  The second component is the
query log: every Julian instant passed to the oracle, in order. -/
def calculate_design_time_endpoint (oracle : SunOracle)
    (request : DesignTimeRequest) :
    Except ApiError DesignTimeResponse × List ℚ :=
  if request.search_window_days.min ≥ request.search_window_days.max then
    (.error (.badRequest windowErrMsg), [])
  else
    match oracle request.birth_jd_ut with
    | .error msg => (.error (.badRequest (birthErrMsg msg)), [request.birth_jd_ut])
    | .ok lon =>
      let birth_sun_lon := normalize_angle lon
      let target_sun_lon := normalize_angle (birth_sun_lon - request.sun_offset_deg)
      let search_start_jd := request.birth_jd_ut - (request.search_window_days.max : ℚ)
      let search_end_jd := request.birth_jd_ut - (request.search_window_days.min : ℚ)
      match solverLoop oracle target_sun_lon request.tolerance_deg request.max_iter 0
          search_start_jd search_end_jd none none [request.birth_jd_ut] with
      | (.error msg, log2) => (.error (.badRequest msg), log2)
      | (.ok result, log2) =>
        match result.design_jd_ut, result.achieved_sun_lon with
        | some design_jd_ut, some achieved_sun_lon =>
          let delta := |angle_difference achieved_sun_lon target_sun_lon|
          if delta > request.tolerance_deg then
            (.error (.noConvergence noConvDeltaMsg), log2)
          else
            (.ok ⟨request.birth_jd_ut, design_jd_ut, target_sun_lon,
                  achieved_sun_lon, delta, result.iterations⟩, log2)
        | _, _ => (.error (.noConvergence noConvIterMsg), log2)

/- ### Ephemeris-path initialization (`app/core/swe.py`) -/

/-- Default ephemeris data path when `SWEPH_PATH` is unset (line 69 of
`app/core/swe.py`). -/
def swephDefaultPath : String := "./sweph"

/-- The process-wide state touched by `initialize_ephemeris_path`: the
`_ephe_path_initialized` flag and the path last handed to
`swe.set_ephe_path`. -/
structure EpheState where
  ephe_path_initialized : Bool
  ephe_path : Option String
deriving DecidableEq

/-- `app/core/swe.py::initialize_ephemeris_path`; `env_sweph_path` is
the value of the `SWEPH_PATH` environment variable (`none` when unset). -/
def initialize_ephemeris_path (env_sweph_path : Option String)
    (s : EpheState) : EpheState :=
  if s.ephe_path_initialized then s
  else { ephe_path_initialized := true,
         ephe_path := some (env_sweph_path.getD swephDefaultPath) }

/- ### A linear oracle and concrete fixtures used in the theorems below -/

/-- Longitude of a body advancing linearly at `rate` degrees per day,
crossing 0 at `t0`, wrapped into [0, 360). -/
def sunAt (rate t0 t : ℚ) : ℚ := normalize_angle (rate * (t - t0))

/-- The deterministic linear oracle of the spec's convergence property:
`longitude(t) = normalize(rate * (t - t0))`, never failing. -/
def linearOracle (rate t0 : ℚ) : SunOracle := fun t => .ok (sunAt rate t0 t)

/-- An always-succeeding oracle returning the raw instant as longitude. -/
def identityOracle : SunOracle := fun t => .ok t

/-- An always-succeeding oracle stuck at longitude 0. -/
def zeroOracle : SunOracle := fun _ => .ok 0

/-- Exception text of the always-failing oracle fixture. -/
def failText : String := "swe error -1 for Sun"

/-- An oracle whose every query raises. -/
def failingOracle : SunOracle := fun _ => .error failText

/-- Fixture: a well-formed request that converges quickly (window 70-110
days before birth, tolerance 1 degree). -/
def reqConvergent : DesignTimeRequest :=
  { birth_jd_ut := 360, sun_offset_deg := 88,
    search_window_days := { min := 70, max := 110 },
    tolerance_deg := 1, max_iter := 80 }

/-- Fixture: same request with an inverted window (min > max). -/
def reqInvertedWindow : DesignTimeRequest :=
  { birth_jd_ut := 360, sun_offset_deg := 88,
    search_window_days := { min := 110, max := 70 },
    tolerance_deg := 1, max_iter := 80 }

/-- Fixture: a request with a budget of one single iteration. -/
def reqOneIter : DesignTimeRequest :=
  { birth_jd_ut := 360, sun_offset_deg := 88,
    search_window_days := { min := 70, max := 110 },
    tolerance_deg := 1 / 100, max_iter := 1 }
/- ### Basic lemmas about the angular arithmetic -/

theorem pymod_nonneg (x : ℚ) : 0 ≤ pymod x 360 := by
  have h := Int.floor_le (x / 360)
  have h360 : (0:ℚ) < 360 := by norm_num
  unfold pymod
  nlinarith [h, h360]

theorem pymod_lt (x : ℚ) : pymod x 360 < 360 := by
  have h := Int.lt_floor_add_one (x / 360)
  have h360 : (0:ℚ) < 360 := by norm_num
  unfold pymod
  nlinarith [h, h360]

/-- The negative branch of `normalize_angle` is dead over exact
rationals: the mod result is already nonnegative. -/
theorem normalize_angle_eq_pymod (x : ℚ) : normalize_angle x = pymod x 360 :=
  if_neg (not_lt.2 (pymod_nonneg x))

theorem normalize_angle_nonneg (x : ℚ) : 0 ≤ normalize_angle x := by
  rw [normalize_angle_eq_pymod]; exact pymod_nonneg x

theorem normalize_angle_lt (x : ℚ) : normalize_angle x < 360 := by
  rw [normalize_angle_eq_pymod]; exact pymod_lt x

/-- Congruence modulo 360, witnessed by an integer multiple. -/
def angCong (a b : ℚ) : Prop := ∃ k : ℤ, a - b = 360 * k

theorem angCong.refl (a : ℚ) : angCong a a := ⟨0, by ring⟩

theorem angCong.symm {a b : ℚ} (h : angCong a b) : angCong b a := by
  obtain ⟨k, hk⟩ := h
  exact ⟨-k, by push_cast; linarith⟩

theorem angCong.trans {a b c : ℚ} (h1 : angCong a b) (h2 : angCong b c) :
    angCong a c := by
  obtain ⟨k1, hk1⟩ := h1
  obtain ⟨k2, hk2⟩ := h2
  exact ⟨k1 + k2, by push_cast; linarith⟩

theorem angCong.sub {a b c d : ℚ} (h1 : angCong a b) (h2 : angCong c d) :
    angCong (a - c) (b - d) := by
  obtain ⟨k1, hk1⟩ := h1
  obtain ⟨k2, hk2⟩ := h2
  exact ⟨k1 - k2, by push_cast; linarith⟩

theorem angCong_add_360 (a : ℚ) : angCong (a + 360) a := ⟨1, by ring⟩

theorem angCong_sub_360 (a : ℚ) : angCong (a - 360) a := ⟨-1, by push_cast; ring⟩

theorem normalize_angle_cong (x : ℚ) : angCong (normalize_angle x) x := by
  rw [normalize_angle_eq_pymod]
  exact ⟨-⌊x / 360⌋, by unfold pymod; push_cast; ring⟩

/-- Two congruent values less than 360 apart are equal. -/
theorem angCong.eq_of_abs_lt {a b : ℚ} (h : angCong a b) (hlt : |a - b| < 360) :
    a = b := by
  obtain ⟨k, hk⟩ := h
  rw [hk] at hlt
  have habs : |(360:ℚ) * k| = 360 * |(k:ℚ)| := by
    rw [abs_mul, abs_of_nonneg (by norm_num : (0:ℚ) ≤ 360)]
  rw [habs] at hlt
  have hklt : |(k:ℚ)| < 1 := by linarith
  have hk0 : k = 0 := by
    have h1 := (abs_lt.1 hklt).1
    have h2 := (abs_lt.1 hklt).2
    have hi1 : (-1:ℤ) < k := by exact_mod_cast h1
    have hi2 : k < 1 := by exact_mod_cast h2
    omega
  rw [hk0] at hk
  push_cast at hk
  linarith

/-- A value congruent to `b ∈ [0, 360)` normalizes exactly to `b`. -/
theorem normalize_angle_eq_of_cong {a b : ℚ} (h : angCong a b) (hb0 : 0 ≤ b)
    (hb1 : b < 360) : normalize_angle a = b := by
  have hcong : angCong (normalize_angle a) b :=
    (normalize_angle_cong a).trans h
  refine hcong.eq_of_abs_lt ?_
  have h1 := normalize_angle_nonneg a
  have h2 := normalize_angle_lt a
  rw [abs_lt]
  constructor <;> linarith

theorem normalize_angle_idem (x : ℚ) :
    normalize_angle (normalize_angle x) = normalize_angle x :=
  normalize_angle_eq_of_cong (angCong.refl _) (normalize_angle_nonneg x)
    (normalize_angle_lt x)

theorem angle_difference_le (a b : ℚ) : angle_difference a b ≤ 180 := by
  simp only [angle_difference]
  have h1 := normalize_angle_nonneg a
  have h2 := normalize_angle_lt a
  have h3 := normalize_angle_nonneg b
  have h4 := normalize_angle_lt b
  split <;> rename_i h
  · linarith
  · split <;> rename_i h' <;> linarith

theorem angle_difference_ge (a b : ℚ) : -180 ≤ angle_difference a b := by
  simp only [angle_difference]
  have h1 := normalize_angle_nonneg a
  have h2 := normalize_angle_lt a
  have h3 := normalize_angle_nonneg b
  have h4 := normalize_angle_lt b
  split <;> rename_i h
  · linarith
  · split <;> rename_i h' <;> linarith

theorem abs_angle_difference_le (a b : ℚ) : |angle_difference a b| ≤ 180 :=
  abs_le.2 ⟨angle_difference_ge a b, angle_difference_le a b⟩

theorem angle_difference_cong (a b : ℚ) :
    angCong (angle_difference a b) (a - b) := by
  have hbase : angCong (normalize_angle a - normalize_angle b) (a - b) :=
    (normalize_angle_cong a).sub (normalize_angle_cong b)
  simp only [angle_difference]
  split
  · exact (angCong_sub_360 _).trans hbase
  · split
    · exact (angCong_add_360 _).trans hbase
    · exact hbase

/-- If the true (real-valued) angular error is at most `tol`, then so is
the wrapped difference the solver computes. -/
theorem abs_angle_difference_le_of_cong {d x tol : ℚ} (hcong : angCong d x)
    (hd : |d| ≤ 180) (hx : |x| ≤ tol) : |d| ≤ tol := by
  rcases le_or_lt 180 tol with htol | htol
  · linarith
  · have hdx : d = x := by
      refine hcong.eq_of_abs_lt ?_
      have h1 : |d - x| ≤ |d| + |x| := abs_sub d x
      linarith
    rw [hdx]; exact hx


/- ### Unfolding and shape lemmas for the solver loop -/

theorem solverLoop_next {oracle : SunOracle} {target tol : ℚ} {fuel iters : ℕ}
    {s e : ℚ} {d a : Option ℚ} {log : List ℚ} {s2 e2 : ℚ} {d2 a2 : Option ℚ}
    {log2 : List ℚ}
    (h : iterStep oracle target tol s e d a log = (.next s2 e2 d2 a2, log2)) :
    solverLoop oracle target tol (fuel + 1) iters s e d a log =
      solverLoop oracle target tol fuel (iters + 1) s2 e2 d2 a2 log2 := by
  simp [solverLoop, h]

theorem solverLoop_brk {oracle : SunOracle} {target tol : ℚ} {fuel iters : ℕ}
    {s e : ℚ} {d a : Option ℚ} {log : List ℚ} {dv av : ℚ} {log2 : List ℚ}
    (h : iterStep oracle target tol s e d a log = (.brk dv av, log2)) :
    solverLoop oracle target tol (fuel + 1) iters s e d a log =
      (.ok ⟨iters + 1, s, e, some dv, some av⟩, log2) := by
  simp [solverLoop, h]

theorem solverLoop_fail {oracle : SunOracle} {target tol : ℚ} {fuel iters : ℕ}
    {s e : ℚ} {d a : Option ℚ} {log : List ℚ} {msg : String} {log2 : List ℚ}
    (h : iterStep oracle target tol s e d a log = (.oracleFail msg, log2)) :
    solverLoop oracle target tol (fuel + 1) iters s e d a log =
      (.error msg, log2) := by
  simp [solverLoop, h]

/-- The midpoint step appends exactly one query, at the midpoint. -/
theorem midStep_log (oracle : SunOracle) (target tol s e : ℚ) (d a : Option ℚ)
    (log : List ℚ) :
    (midStep oracle target tol s e d a log).2 = log ++ [(s + e) / 2] := by
  simp only [midStep]
  cases h : oracle ((s + e) / 2) with
  | error msg => rfl
  | ok lon =>
    simp only []
    split
    · rfl
    · split <;> rfl

/-- One loop iteration appends one query (normal path) or two queries
(small-window path whose tolerance check fails), all at the midpoint of
the current interval. -/
theorem iterStep_log (oracle : SunOracle) (target tol s e : ℚ) (d a : Option ℚ)
    (log : List ℚ) :
    (iterStep oracle target tol s e d a log).2 = log ++ [(s + e) / 2] ∨
    (iterStep oracle target tol s e d a log).2 =
      log ++ [(s + e) / 2, (s + e) / 2] := by
  simp only [iterStep]
  split
  · cases h : oracle ((s + e) / 2) with
    | error msg => left; rfl
    | ok lon =>
      simp only []
      split
      · left; rfl
      · right
        rw [midStep_log]
        simp
  · left; exact midStep_log oracle target tol s e d a log

/-- Shape of a loop-iteration outcome: a wrapped oracle failure, a break
at the current midpoint with a normalized longitude, or a halved
interval whose candidate fields are carried or set to the midpoint and a
normalized longitude. -/
theorem iterStep_cases (oracle : SunOracle) (target tol s e : ℚ)
    (d a : Option ℚ) (log : List ℚ) :
    (∃ msg, (iterStep oracle target tol s e d a log).1 = .oracleFail msg) ∨
    (∃ lon, (iterStep oracle target tol s e d a log).1 =
        .brk ((s + e) / 2) (normalize_angle lon)) ∨
    (∃ d2 a2, ((iterStep oracle target tol s e d a log).1 =
          .next s ((s + e) / 2) d2 a2 ∨
        (iterStep oracle target tol s e d a log).1 =
          .next ((s + e) / 2) e d2 a2) ∧
      (d2 = d ∨ d2 = some ((s + e) / 2)) ∧
      (a2 = a ∨ ∃ lon2, a2 = some (normalize_angle lon2))) := by
  have hmid : ∀ (d3 a3 : Option ℚ) (log3 : List ℚ),
      (∃ msg, (midStep oracle target tol s e d3 a3 log3).1 = .oracleFail msg) ∨
      (∃ lon, (midStep oracle target tol s e d3 a3 log3).1 =
          .brk ((s + e) / 2) (normalize_angle lon)) ∨
      ((midStep oracle target tol s e d3 a3 log3).1 =
          .next s ((s + e) / 2) d3 a3 ∨
        (midStep oracle target tol s e d3 a3 log3).1 =
          .next ((s + e) / 2) e d3 a3) := by
    intro d3 a3 log3
    simp only [midStep]
    cases h : oracle ((s + e) / 2) with
    | error msg => exact .inl ⟨midErrMsg msg, rfl⟩
    | ok lon =>
      simp only []
      split
      · exact .inr (.inl ⟨lon, rfl⟩)
      · split
        · exact .inr (.inr (.inl rfl))
        · exact .inr (.inr (.inr rfl))
  simp only [iterStep]
  split
  · cases h : oracle ((s + e) / 2) with
    | error msg => exact .inl ⟨designErrMsg msg, rfl⟩
    | ok lon =>
      simp only []
      split
      · exact .inr (.inl ⟨lon, rfl⟩)
      · rcases hmid (some ((s + e) / 2)) (some (normalize_angle lon))
            (log ++ [(s + e) / 2]) with hfail | hbrk | hnext
        · exact .inl hfail
        · exact .inr (.inl hbrk)
        · exact .inr (.inr ⟨some ((s + e) / 2), some (normalize_angle lon),
            hnext, .inr rfl, .inr ⟨lon, rfl⟩⟩)
  · rcases hmid d a log with hfail | hbrk | hnext
    · exact .inl hfail
    · exact .inr (.inl hbrk)
    · exact .inr (.inr ⟨d, a, hnext, .inl rfl, .inl rfl⟩)

theorem mid_between {s e : ℚ} (h : s ≤ e) :
    s ≤ (s + e) / 2 ∧ (s + e) / 2 ≤ e := by
  constructor <;> linarith

/-- A continuing iteration halves the interval: the new bounds are the
old start with the midpoint, or the midpoint with the old end. -/
theorem iterStep_next_bounds {oracle : SunOracle} {target tol s e : ℚ}
    {d a : Option ℚ} {log : List ℚ} {s2 e2 : ℚ} {d2 a2 : Option ℚ}
    {log1 : List ℚ}
    (hp : iterStep oracle target tol s e d a log = (.next s2 e2 d2 a2, log1)) :
    (s2 = s ∧ e2 = (s + e) / 2) ∨ (s2 = (s + e) / 2 ∧ e2 = e) := by
  rcases iterStep_cases oracle target tol s e d a log with
    ⟨msg, hmsg⟩ | ⟨lon, hlon⟩ | ⟨d2', a2', hor, _, _⟩
  · rw [hp] at hmsg; simp at hmsg
  · rw [hp] at hlon; simp at hlon
  · rw [hp] at hor
    simp only [StepOut.next.injEq] at hor
    rcases hor with ⟨h1, h2, _, _⟩ | ⟨h1, h2, _, _⟩
    · exact .inl ⟨h1, h2⟩
    · exact .inr ⟨h1, h2⟩

/-- A continuing iteration carries the candidate fields or sets them to
the current midpoint and a normalized longitude. -/
theorem iterStep_next_da {oracle : SunOracle} {target tol s e : ℚ}
    {d a : Option ℚ} {log : List ℚ} {s2 e2 : ℚ} {d2 a2 : Option ℚ}
    {log1 : List ℚ}
    (hp : iterStep oracle target tol s e d a log = (.next s2 e2 d2 a2, log1)) :
    (d2 = d ∨ d2 = some ((s + e) / 2)) ∧
    (a2 = a ∨ ∃ lon2, a2 = some (normalize_angle lon2)) := by
  rcases iterStep_cases oracle target tol s e d a log with
    ⟨msg, hmsg⟩ | ⟨lon, hlon⟩ | ⟨d2', a2', hor, hd', ha'⟩
  · rw [hp] at hmsg; simp at hmsg
  · rw [hp] at hlon; simp at hlon
  · rw [hp] at hor
    simp only [StepOut.next.injEq] at hor
    rcases hor with ⟨_, _, h3, h4⟩ | ⟨_, _, h3, h4⟩ <;> rw [h3, h4] <;>
      exact ⟨hd', ha'⟩

/-- A break hands back the current midpoint and a normalized longitude. -/
theorem iterStep_brk_shape {oracle : SunOracle} {target tol s e : ℚ}
    {d a : Option ℚ} {log : List ℚ} {dv av : ℚ} {log1 : List ℚ}
    (hp : iterStep oracle target tol s e d a log = (.brk dv av, log1)) :
    dv = (s + e) / 2 ∧ ∃ lon, av = normalize_angle lon := by
  rcases iterStep_cases oracle target tol s e d a log with
    ⟨msg, hmsg⟩ | ⟨lon, hlon⟩ | ⟨d2', a2', hor, _, _⟩
  · rw [hp] at hmsg; simp at hmsg
  · rw [hp] at hlon
    simp only [StepOut.brk.injEq] at hlon
    exact ⟨hlon.1, lon, hlon.2⟩
  · rcases hor with h | h <;> (rw [hp] at h; simp at h)

/-- The loop only appends queries taken inside the enclosing interval. -/
theorem solverLoop_log_suffix {oracle : SunOracle} {target tol lo hi : ℚ} :
    ∀ (fuel iters : ℕ) (s e : ℚ) (d a : Option ℚ) (log : List ℚ),
      lo ≤ s → e ≤ hi → s ≤ e →
      ∃ rest,
        (solverLoop oracle target tol fuel iters s e d a log).2 = log ++ rest ∧
        ∀ q ∈ rest, lo ≤ q ∧ q ≤ hi := by
  intro fuel
  induction fuel with
  | zero =>
    intro iters s e d a log _ _ _
    exact ⟨[], by simp [solverLoop], by simp⟩
  | succ f ih =>
    intro iters s e d a log hlo hhi hse
    have hmid := mid_between hse
    have hmidb : lo ≤ (s + e) / 2 ∧ (s + e) / 2 ≤ hi :=
      ⟨le_trans hlo hmid.1, le_trans hmid.2 hhi⟩
    rcases hp : iterStep oracle target tol s e d a log with ⟨out, log1⟩
    have hlog1 := iterStep_log oracle target tol s e d a log
    rw [hp] at hlog1
    have hrest1 : ∃ r1, log1 = log ++ r1 ∧ ∀ q ∈ r1, lo ≤ q ∧ q ≤ hi := by
      rcases hlog1 with h | h
      · refine ⟨[(s + e) / 2], h, ?_⟩
        intro q hq
        simp only [List.mem_singleton] at hq
        rw [hq]; exact hmidb
      · refine ⟨[(s + e) / 2, (s + e) / 2], h, ?_⟩
        intro q hq
        simp only [List.mem_cons, List.not_mem_nil, or_false] at hq
        rcases hq with h1 | h1 <;> (rw [h1]; exact hmidb)
    obtain ⟨r1, hr1, hr1mem⟩ := hrest1
    cases out with
    | oracleFail msg =>
      rw [solverLoop_fail hp]
      exact ⟨r1, hr1, hr1mem⟩
    | brk dv av =>
      rw [solverLoop_brk hp]
      exact ⟨r1, hr1, hr1mem⟩
    | next s2 e2 d2 a2 =>
      rw [solverLoop_next hp]
      have hbounds : lo ≤ s2 ∧ e2 ≤ hi ∧ s2 ≤ e2 := by
        rcases iterStep_next_bounds hp with ⟨h1, h2⟩ | ⟨h1, h2⟩
        · rw [h1, h2]; exact ⟨hlo, hmidb.2, hmid.1⟩
        · rw [h1, h2]; exact ⟨hmidb.1, hhi, hmid.2⟩
      obtain ⟨r2, hr2, hr2mem⟩ :=
        ih (iters + 1) s2 e2 d2 a2 log1 hbounds.1 hbounds.2.1 hbounds.2.2
      refine ⟨r1 ++ r2, ?_, ?_⟩
      · rw [hr2, hr1, List.append_assoc]
      · intro q hq
        rcases List.mem_append.1 hq with h | h
        · exact hr1mem q h
        · exact hr2mem q h

/-- Each loop iteration makes at most two oracle queries, so the whole
loop appends at most `2 * fuel` entries to the query log. -/
theorem solverLoop_log_length {oracle : SunOracle} {target tol : ℚ} :
    ∀ (fuel iters : ℕ) (s e : ℚ) (d a : Option ℚ) (log : List ℚ),
      ((solverLoop oracle target tol fuel iters s e d a log).2).length ≤
        log.length + 2 * fuel := by
  intro fuel
  induction fuel with
  | zero => intro iters s e d a log; simp [solverLoop]
  | succ f ih =>
    intro iters s e d a log
    rcases hp : iterStep oracle target tol s e d a log with ⟨out, log1⟩
    have hlog1 := iterStep_log oracle target tol s e d a log
    rw [hp] at hlog1
    have hlen : log1.length ≤ log.length + 2 := by
      rcases hlog1 with h | h <;>
        (rw [show log1 = _ from h]; simp [List.length_append])
    cases out with
    | oracleFail msg => rw [solverLoop_fail hp]; simpa using by omega
    | brk dv av => rw [solverLoop_brk hp]; simpa using by omega
    | next s2 e2 d2 a2 =>
      rw [solverLoop_next hp]
      have := ih (iters + 1) s2 e2 d2 a2 log1
      omega

/-- Interval and candidate invariants carried to the loop's exit state:
bounds shrink inside the enclosing interval, the candidate instant stays
inside it, and the candidate longitude stays normalized. -/
theorem solverLoop_ok_shape {oracle : SunOracle} {target tol lo hi : ℚ} :
    ∀ (fuel iters : ℕ) (s e : ℚ) (d a : Option ℚ) (log : List ℚ)
      (r : LoopResult) (log2 : List ℚ),
      lo ≤ s → e ≤ hi → s ≤ e →
      (∀ dv, d = some dv → lo ≤ dv ∧ dv ≤ hi) →
      (∀ av, a = some av → 0 ≤ av ∧ av < 360) →
      solverLoop oracle target tol fuel iters s e d a log = (.ok r, log2) →
      lo ≤ r.search_start_jd ∧ r.search_end_jd ≤ hi ∧
      r.search_start_jd ≤ r.search_end_jd ∧
      (∀ dv, r.design_jd_ut = some dv → lo ≤ dv ∧ dv ≤ hi) ∧
      (∀ av, r.achieved_sun_lon = some av → 0 ≤ av ∧ av < 360) := by
  intro fuel
  induction fuel with
  | zero =>
    intro iters s e d a log r log2 hlo hhi hse hd ha h
    simp only [solverLoop, Prod.mk.injEq, Except.ok.injEq] at h
    rw [← h.1]
    exact ⟨hlo, hhi, hse, hd, ha⟩
  | succ f ih =>
    intro iters s e d a log r log2 hlo hhi hse hd ha h
    have hmid := mid_between hse
    have hmidb : lo ≤ (s + e) / 2 ∧ (s + e) / 2 ≤ hi :=
      ⟨le_trans hlo hmid.1, le_trans hmid.2 hhi⟩
    rcases hp : iterStep oracle target tol s e d a log with ⟨out, log1⟩
    cases out with
    | oracleFail msg => rw [solverLoop_fail hp] at h; simp at h
    | brk dv av =>
      rw [solverLoop_brk hp] at h
      simp only [Prod.mk.injEq, Except.ok.injEq] at h
      obtain ⟨hdv, lon, hav⟩ := iterStep_brk_shape hp
      rw [← h.1]
      refine ⟨hlo, hhi, hse, ?_, ?_⟩
      · intro dv2 hdv2
        simp only [Option.some.injEq] at hdv2
        rw [← hdv2, hdv]; exact hmidb
      · intro av2 hav2
        simp only [Option.some.injEq] at hav2
        rw [← hav2, hav]
        exact ⟨normalize_angle_nonneg lon, normalize_angle_lt lon⟩
    | next s2 e2 d2 a2 =>
      rw [solverLoop_next hp] at h
      have hbounds : lo ≤ s2 ∧ e2 ≤ hi ∧ s2 ≤ e2 := by
        rcases iterStep_next_bounds hp with ⟨h1, h2⟩ | ⟨h1, h2⟩
        · rw [h1, h2]; exact ⟨hlo, hmidb.2, hmid.1⟩
        · rw [h1, h2]; exact ⟨hmidb.1, hhi, hmid.2⟩
      have hda := iterStep_next_da hp
      have hd2 : ∀ dv, d2 = some dv → lo ≤ dv ∧ dv ≤ hi := by
        rcases hda.1 with h1 | h1
        · rw [h1]; exact hd
        · rw [h1]
          intro dv hdv
          simp only [Option.some.injEq] at hdv
          rw [← hdv]; exact hmidb
      have ha2 : ∀ av, a2 = some av → 0 ≤ av ∧ av < 360 := by
        rcases hda.2 with h1 | ⟨lon2, h1⟩
        · rw [h1]; exact ha
        · rw [h1]
          intro av hav
          simp only [Option.some.injEq] at hav
          rw [← hav]
          exact ⟨normalize_angle_nonneg lon2, normalize_angle_lt lon2⟩
      exact ih (iters + 1) s2 e2 d2 a2 log1 r log2 hbounds.1 hbounds.2.1
        hbounds.2.2 hd2 ha2 h

/-- On a normal exit the loop either never broke (exit state equals the
entry state) or ran at least one full iteration. -/
theorem solverLoop_iterations {oracle : SunOracle} {target tol : ℚ} :
    ∀ (fuel iters : ℕ) (s e : ℚ) (d a : Option ℚ) (log : List ℚ)
      (r : LoopResult) (log2 : List ℚ),
      solverLoop oracle target tol fuel iters s e d a log = (.ok r, log2) →
      (r.iterations = iters ∧ r.design_jd_ut = d ∧ r.achieved_sun_lon = a) ∨
      iters + 1 ≤ r.iterations := by
  intro fuel
  induction fuel with
  | zero =>
    intro iters s e d a log r log2 h
    simp only [solverLoop, Prod.mk.injEq, Except.ok.injEq] at h
    rw [← h.1]
    exact .inl ⟨rfl, rfl, rfl⟩
  | succ f ih =>
    intro iters s e d a log r log2 h
    rcases hp : iterStep oracle target tol s e d a log with ⟨out, log1⟩
    cases out with
    | oracleFail msg => rw [solverLoop_fail hp] at h; simp at h
    | brk dv av =>
      rw [solverLoop_brk hp] at h
      simp only [Prod.mk.injEq, Except.ok.injEq] at h
      rw [← h.1]
      exact .inr (le_refl _)
    | next s2 e2 d2 a2 =>
      rw [solverLoop_next hp] at h
      rcases ih (iters + 1) s2 e2 d2 a2 log1 r log2 h with ⟨h1, _⟩ | h1
      · exact .inr (by omega)
      · exact .inr (by omega)

/- ### Convergence of the bisection against the linear oracle -/

theorem sunAt_cong (rate t0 t : ℚ) : angCong (sunAt rate t0 t) (rate * (t - t0)) :=
  normalize_angle_cong _

theorem normalize_sunAt (rate t0 t : ℚ) :
    normalize_angle (sunAt rate t0 t) = sunAt rate t0 t :=
  normalize_angle_idem _

/-- The wrapped steering error at the midpoint is congruent to the true
linear error `rate * (mid - troot)` relative to any exact root. -/
theorem diff_cong_linear {rate t0 target troot : ℚ} (t : ℚ)
    (hroot : sunAt rate t0 troot = target) :
    angCong (angle_difference (sunAt rate t0 t) target)
      (rate * (t - troot)) := by
  have hc1 : angCong (angle_difference (sunAt rate t0 t) target)
      (sunAt rate t0 t - target) := angle_difference_cong _ _
  have hc2 : angCong (sunAt rate t0 t) (rate * (t - t0)) := sunAt_cong rate t0 t
  have hc3 : angCong target (rate * (troot - t0)) := by
    rw [← hroot]; exact sunAt_cong rate t0 troot
  have hc4 : angCong (sunAt rate t0 t - target)
      (rate * (t - t0) - rate * (troot - t0)) := hc2.sub hc3
  have hrw : rate * (t - t0) - rate * (troot - t0) = rate * (t - troot) := by
    ring
  rw [hrw] at hc4
  exact hc1.trans hc4

/-- Steering soundness, ahead case: when the midpoint's wrapped error is
positive and a root lies in `[s, e]`, a root lies in `[s, mid]`. -/
theorem steering_pos {rate t0 target s e troot : ℚ}
    (hrate : 0 < rate) (ht0 : 0 ≤ target) (ht1 : target < 360)
    (hs : s ≤ troot) (he : troot ≤ e)
    (hroot : sunAt rate t0 troot = target)
    (hpos : 0 < angle_difference (sunAt rate t0 ((s + e) / 2)) target) :
    ∃ u, s ≤ u ∧ u ≤ (s + e) / 2 ∧ sunAt rate t0 u = target := by
  by_cases htm : troot ≤ (s + e) / 2
  · exact ⟨troot, hs, htm, hroot⟩
  push_neg at htm
  set mid := (s + e) / 2 with hmid_def
  set dd := angle_difference (sunAt rate t0 mid) target with hdd_def
  have hd180 : dd ≤ 180 := angle_difference_le _ _
  obtain ⟨k, hk⟩ := diff_cong_linear mid hroot
  have hneg : rate * (mid - troot) < 0 :=
    mul_neg_of_pos_of_neg hrate (by linarith)
  have hkpos : 1 ≤ k := by
    by_contra hkc
    push_neg at hkc
    have hk0 : k ≤ 0 := by omega
    have hk0q : (k : ℚ) ≤ 0 := by exact_mod_cast hk0
    nlinarith [hk, hpos, hneg]
  have hkq : (1 : ℚ) ≤ k := by exact_mod_cast hkpos
  have hge : 360 - dd ≤ rate * (troot - mid) := by nlinarith [hk, hkq]
  have hddr : dd / rate ≤ troot - mid := by
    rw [div_le_iff hrate]
    nlinarith [hge, hd180]
  refine ⟨mid - dd / rate, ?_, ?_, ?_⟩
  · have hmid_e : mid - s = e - mid := by rw [hmid_def]; ring
    have h1 : troot - mid ≤ e - mid := by linarith
    linarith
  · have : 0 < dd / rate := div_pos hpos hrate
    linarith
  · show normalize_angle (rate * ((mid - dd / rate) - t0)) = target
    have hrw : rate * ((mid - dd / rate) - t0) = rate * (mid - t0) - dd := by
      field_simp
      ring
    rw [hrw]
    refine normalize_angle_eq_of_cong ?_ ht0 ht1
    have hfull : angCong dd (rate * (mid - t0) - target) :=
      (angle_difference_cong _ _).trans ((sunAt_cong rate t0 mid).sub (angCong.refl target))
    obtain ⟨m, hm⟩ := hfull
    exact ⟨-m, by push_cast; linarith⟩

/-- Steering soundness, behind case: when the midpoint's wrapped error
is negative and a root lies in `[s, e]`, a root lies in `[mid, e]`. -/
theorem steering_neg {rate t0 target s e troot : ℚ}
    (hrate : 0 < rate) (ht0 : 0 ≤ target) (ht1 : target < 360)
    (hs : s ≤ troot) (he : troot ≤ e)
    (hroot : sunAt rate t0 troot = target)
    (hneg : angle_difference (sunAt rate t0 ((s + e) / 2)) target < 0) :
    ∃ u, (s + e) / 2 ≤ u ∧ u ≤ e ∧ sunAt rate t0 u = target := by
  by_cases htm : (s + e) / 2 ≤ troot
  · exact ⟨troot, htm, he, hroot⟩
  push_neg at htm
  set mid := (s + e) / 2 with hmid_def
  set dd := angle_difference (sunAt rate t0 mid) target with hdd_def
  have hd180 : -180 ≤ dd := angle_difference_ge _ _
  obtain ⟨k, hk⟩ := diff_cong_linear mid hroot
  have hposm : 0 < rate * (mid - troot) :=
    mul_pos hrate (by linarith)
  have hkneg : k ≤ -1 := by
    by_contra hkc
    push_neg at hkc
    have hk0 : 0 ≤ k := by omega
    have hk0q : (0 : ℚ) ≤ k := by exact_mod_cast hk0
    nlinarith [hk, hneg, hposm]
  have hkq : (k : ℚ) ≤ -1 := by exact_mod_cast hkneg
  have hge : 360 + dd ≤ rate * (mid - troot) := by nlinarith [hk, hkq]
  have hddr : troot - mid ≤ dd / rate := by
    rw [le_div_iff hrate]
    nlinarith [hge, hd180]
  refine ⟨mid - dd / rate, ?_, ?_, ?_⟩
  · have : dd / rate < 0 := div_neg_of_neg_of_pos hneg hrate
    linarith
  · have hmid_e : mid - s = e - mid := by rw [hmid_def]; ring
    have h1 : mid - troot ≤ mid - s := by linarith
    linarith
  · show normalize_angle (rate * ((mid - dd / rate) - t0)) = target
    have hrw : rate * ((mid - dd / rate) - t0) = rate * (mid - t0) - dd := by
      field_simp
      ring
    rw [hrw]
    refine normalize_angle_eq_of_cong ?_ ht0 ht1
    have hfull : angCong dd (rate * (mid - t0) - target) :=
      (angle_difference_cong _ _).trans ((sunAt_cong rate t0 mid).sub (angCong.refl target))
    obtain ⟨m, hm⟩ := hfull
    exact ⟨-m, by push_cast; linarith⟩

/-- Once the interval's angular width is below the tolerance, the
midpoint's wrapped error is within tolerance. -/
theorem narrow_break {rate t0 target s e troot tol : ℚ}
    (hrate : 0 < rate) (hs : s ≤ troot) (he : troot ≤ e)
    (hroot : sunAt rate t0 troot = target)
    (hnarrow : rate * (e - s) ≤ tol) :
    |angle_difference (sunAt rate t0 ((s + e) / 2)) target| ≤ tol := by
  set mid := (s + e) / 2 with hmid_def
  refine abs_angle_difference_le_of_cong (diff_cong_linear mid hroot)
    (abs_angle_difference_le _ _) ?_
  rw [abs_mul, abs_of_pos hrate]
  have hse : s ≤ e := le_trans hs he
  have hmb := mid_between hse
  have h1 : |mid - troot| ≤ e - s := by
    rw [abs_le]
    constructor <;> linarith [hmb.1, hmb.2]
  calc rate * |mid - troot| ≤ rate * (e - s) := by nlinarith [h1]
    _ ≤ tol := hnarrow

/-- Deterministic trichotomy of the midpoint step against the linear
oracle: break within tolerance, steer left, or steer right. -/
theorem midStep_linear {rate t0 target tol s e : ℚ} (htol : 0 ≤ tol)
    (d a : Option ℚ) (log : List ℚ) :
    (midStep (linearOracle rate t0) target tol s e d a log =
        (.brk ((s + e) / 2) (sunAt rate t0 ((s + e) / 2)), log ++ [(s + e) / 2]) ∧
      |angle_difference (sunAt rate t0 ((s + e) / 2)) target| ≤ tol) ∨
    (midStep (linearOracle rate t0) target tol s e d a log =
        (.next s ((s + e) / 2) d a, log ++ [(s + e) / 2]) ∧
      0 < angle_difference (sunAt rate t0 ((s + e) / 2)) target ∧
      tol < |angle_difference (sunAt rate t0 ((s + e) / 2)) target|) ∨
    (midStep (linearOracle rate t0) target tol s e d a log =
        (.next ((s + e) / 2) e d a, log ++ [(s + e) / 2]) ∧
      angle_difference (sunAt rate t0 ((s + e) / 2)) target < 0 ∧
      tol < |angle_difference (sunAt rate t0 ((s + e) / 2)) target|) := by
  have hkey : normalize_angle (sunAt rate t0 ((s + e) / 2)) =
      sunAt rate t0 ((s + e) / 2) := normalize_sunAt rate t0 _
  by_cases hcond : |angle_difference (sunAt rate t0 ((s + e) / 2)) target| ≤ tol
  · left
    refine ⟨?_, hcond⟩
    simp only [midStep, linearOracle]
    rw [hkey, if_pos hcond]
  · have hlt := not_le.1 hcond
    by_cases hpos : 0 < angle_difference (sunAt rate t0 ((s + e) / 2)) target
    · right; left
      refine ⟨?_, hpos, hlt⟩
      simp only [midStep, linearOracle]
      rw [hkey, if_neg hcond, if_pos hpos]
    · right; right
      have hne : angle_difference (sunAt rate t0 ((s + e) / 2)) target ≠ 0 := by
        intro h0
        rw [h0] at hcond
        simp at hcond
        linarith
      have hneg : angle_difference (sunAt rate t0 ((s + e) / 2)) target < 0 :=
        lt_of_le_of_ne (not_lt.1 hpos) hne
      refine ⟨?_, hneg, hlt⟩
      simp only [midStep, linearOracle]
      rw [hkey, if_neg hcond, if_neg hpos]

/-- Deterministic trichotomy of a whole loop iteration against the
linear oracle. -/
theorem iterStep_linear {rate t0 target tol s e : ℚ} (htol : 0 ≤ tol)
    (d a : Option ℚ) (log : List ℚ) :
    (∃ dv av log2,
      iterStep (linearOracle rate t0) target tol s e d a log =
          (.brk dv av, log2) ∧
      |angle_difference av target| ≤ tol) ∨
    (∃ d2 a2 log2,
      ((iterStep (linearOracle rate t0) target tol s e d a log =
          (.next s ((s + e) / 2) d2 a2, log2) ∧
        0 < angle_difference (sunAt rate t0 ((s + e) / 2)) target) ∨
       (iterStep (linearOracle rate t0) target tol s e d a log =
          (.next ((s + e) / 2) e d2 a2, log2) ∧
        angle_difference (sunAt rate t0 ((s + e) / 2)) target < 0)) ∧
      tol < |angle_difference (sunAt rate t0 ((s + e) / 2)) target|) := by
  have hkey : normalize_angle (sunAt rate t0 ((s + e) / 2)) =
      sunAt rate t0 ((s + e) / 2) := normalize_sunAt rate t0 _
  by_cases hsmall : e - s < numericFloor
  · by_cases hcond : |angle_difference (sunAt rate t0 ((s + e) / 2)) target| ≤ tol
    · left
      refine ⟨(s + e) / 2, sunAt rate t0 ((s + e) / 2), log ++ [(s + e) / 2], ?_, hcond⟩
      simp only [iterStep, linearOracle]
      rw [if_pos hsmall, hkey]
      rw [if_pos (by simpa [angle_within_tolerance] using hcond)]
    · have hstep : iterStep (linearOracle rate t0) target tol s e d a log =
          midStep (linearOracle rate t0) target tol s e
            (some ((s + e) / 2)) (some (sunAt rate t0 ((s + e) / 2)))
            (log ++ [(s + e) / 2]) := by
        simp only [iterStep, linearOracle]
        rw [if_pos hsmall, hkey]
        rw [if_neg (by simpa [angle_within_tolerance] using hcond)]
      rcases @midStep_linear rate t0 target tol s e htol (some ((s + e) / 2))
          (some (sunAt rate t0 ((s + e) / 2)))
          (log ++ [(s + e) / 2]) with ⟨_, hbound⟩ | ⟨heq, hpos, hlt⟩ | ⟨heq, hneg, hlt⟩
      · exact absurd hbound hcond
      · exact .inr ⟨some ((s + e) / 2), some (sunAt rate t0 ((s + e) / 2)),
          log ++ [(s + e) / 2] ++ [(s + e) / 2],
          .inl ⟨by rw [hstep, heq], hpos⟩, hlt⟩
      · exact .inr ⟨some ((s + e) / 2), some (sunAt rate t0 ((s + e) / 2)),
          log ++ [(s + e) / 2] ++ [(s + e) / 2],
          .inr ⟨by rw [hstep, heq], hneg⟩, hlt⟩
  · have hstep : iterStep (linearOracle rate t0) target tol s e d a log =
        midStep (linearOracle rate t0) target tol s e d a log := by
      simp only [iterStep]
      rw [if_neg hsmall]
    rcases @midStep_linear rate t0 target tol s e htol d a log with
      ⟨heq, hbound⟩ | ⟨heq, hpos, hlt⟩ | ⟨heq, hneg, hlt⟩
    · exact .inl ⟨(s + e) / 2, sunAt rate t0 ((s + e) / 2), log ++ [(s + e) / 2],
        by rw [hstep, heq], hbound⟩
    · exact .inr ⟨d, a, log ++ [(s + e) / 2], .inl ⟨by rw [hstep, heq], hpos⟩, hlt⟩
    · exact .inr ⟨d, a, log ++ [(s + e) / 2], .inr ⟨by rw [hstep, heq], hneg⟩, hlt⟩

/-- Bisection convergence against the linear oracle: with a root in the
interval and a budget of at least `k + 1` iterations where
`rate * width ≤ tol * 2 ^ k`, the loop exits with a candidate whose
wrapped error is within tolerance. -/
theorem solverLoop_linear {rate t0 target tol : ℚ}
    (hrate : 0 < rate) (htol : 0 < tol) (ht0 : 0 ≤ target) (ht1 : target < 360) :
    ∀ (fuel k iters : ℕ) (s e : ℚ) (d a : Option ℚ) (log : List ℚ),
      k < fuel →
      (∃ t, s ≤ t ∧ t ≤ e ∧ sunAt rate t0 t = target) →
      rate * (e - s) ≤ tol * 2 ^ k →
      ∃ r log2,
        solverLoop (linearOracle rate t0) target tol fuel iters s e d a log =
          (.ok r, log2) ∧
        ∃ dv av, r.design_jd_ut = some dv ∧ r.achieved_sun_lon = some av ∧
          |angle_difference av target| ≤ tol := by
  intro fuel
  induction fuel with
  | zero => intro k iters s e d a log hk; exact absurd hk (by omega)
  | succ f ih =>
    intro k iters s e d a log hk hroot hbudget
    rcases @iterStep_linear rate t0 target tol s e (le_of_lt htol) d a log with
      ⟨dv, av, log2, heq, hbound⟩ | ⟨d2, a2, log2, hor, hgt⟩
    · exact ⟨⟨iters + 1, s, e, some dv, some av⟩, log2, solverLoop_brk heq,
        dv, av, rfl, rfl, hbound⟩
    · obtain ⟨troot, hts, hte, htr⟩ := hroot
      have hnotnarrow : ¬ (rate * (e - s) ≤ tol) := by
        intro hn
        have := narrow_break hrate hts hte htr hn
        linarith
      have hk1 : 1 ≤ k := by
        rcases Nat.eq_zero_or_pos k with h0 | h1
        · rw [h0] at hbudget
          simp at hbudget
          exact absurd hbudget hnotnarrow
        · exact h1
      have h2k : (2 : ℚ) ^ k = 2 * 2 ^ (k - 1) := by
        conv_lhs => rw [show k = (k - 1) + 1 by omega]
        rw [pow_succ]
        ring
      rw [h2k] at hbudget
      rcases hor with ⟨heq, hpos⟩ | ⟨heq, hneg⟩
      · obtain ⟨u, hu1, hu2, hu3⟩ := steering_pos hrate ht0 ht1 hts hte htr hpos
        have hw : rate * ((s + e) / 2 - s) ≤ tol * 2 ^ (k - 1) := by
          have hhalf : rate * ((s + e) / 2 - s) * 2 = rate * (e - s) := by ring
          nlinarith [hbudget, hhalf]
        obtain ⟨r, log3, hloop, hfinal⟩ :=
          ih (k - 1) (iters + 1) s ((s + e) / 2) d2 a2 log2 (by omega)
            ⟨u, hu1, hu2, hu3⟩ hw
        exact ⟨r, log3, by rw [solverLoop_next heq]; exact hloop, hfinal⟩
      · obtain ⟨u, hu1, hu2, hu3⟩ := steering_neg hrate ht0 ht1 hts hte htr hneg
        have hw : rate * (e - (s + e) / 2) ≤ tol * 2 ^ (k - 1) := by
          have hhalf : rate * (e - (s + e) / 2) * 2 = rate * (e - s) := by ring
          nlinarith [hbudget, hhalf]
        obtain ⟨r, log3, hloop, hfinal⟩ :=
          ih (k - 1) (iters + 1) ((s + e) / 2) e d2 a2 log2 (by omega)
            ⟨u, hu1, hu2, hu3⟩ hw
        exact ⟨r, log3, by rw [solverLoop_next heq]; exact hloop, hfinal⟩

/- ### Dissection of endpoint runs -/

/-- A successful endpoint run passed the window check, obtained a birth
longitude, ran the loop to a candidate pair, and rebuilt the response
from the final delta check. -/
theorem endpoint_ok_cases {oracle : SunOracle} {request : DesignTimeRequest}
    {resp : DesignTimeResponse}
    (h : (calculate_design_time_endpoint oracle request).1 = .ok resp) :
    ∃ lon r log2,
      request.search_window_days.min < request.search_window_days.max ∧
      oracle request.birth_jd_ut = .ok lon ∧
      solverLoop oracle
          (normalize_angle (normalize_angle lon - request.sun_offset_deg))
          request.tolerance_deg request.max_iter 0
          (request.birth_jd_ut - (request.search_window_days.max : ℚ))
          (request.birth_jd_ut - (request.search_window_days.min : ℚ))
          none none [request.birth_jd_ut] = (.ok r, log2) ∧
      (calculate_design_time_endpoint oracle request).2 = log2 ∧
      ∃ design_jd achieved,
        r.design_jd_ut = some design_jd ∧ r.achieved_sun_lon = some achieved ∧
        |angle_difference achieved
            (normalize_angle (normalize_angle lon - request.sun_offset_deg))| ≤
          request.tolerance_deg ∧
        resp = ⟨request.birth_jd_ut, design_jd,
          normalize_angle (normalize_angle lon - request.sun_offset_deg),
          achieved,
          |angle_difference achieved
            (normalize_angle (normalize_angle lon - request.sun_offset_deg))|,
          r.iterations⟩ := by
  by_cases hwin : request.search_window_days.min ≥ request.search_window_days.max
  · unfold calculate_design_time_endpoint at h
    rw [if_pos hwin] at h
    simp at h
  · have hwin2 : request.search_window_days.min < request.search_window_days.max :=
      not_le.1 hwin
    cases hb : oracle request.birth_jd_ut with
    | error msg =>
      unfold calculate_design_time_endpoint at h
      rw [if_neg hwin, hb] at h
      simp at h
    | ok lon =>
      rcases hl : solverLoop oracle
          (normalize_angle (normalize_angle lon - request.sun_offset_deg))
          request.tolerance_deg request.max_iter 0
          (request.birth_jd_ut - (request.search_window_days.max : ℚ))
          (request.birth_jd_ut - (request.search_window_days.min : ℚ))
          none none [request.birth_jd_ut] with ⟨res, log2⟩
      unfold calculate_design_time_endpoint at h
      rw [if_neg hwin, hb] at h
      simp only [] at h
      rw [hl] at h
      cases res with
      | error msg => simp at h
      | ok result =>
        simp only [] at h
        cases hd : result.design_jd_ut with
        | none =>
          rw [hd] at h
          simp at h
        | some design_jd =>
          cases ha : result.achieved_sun_lon with
          | none =>
            rw [hd, ha] at h
            simp at h
          | some achieved =>
            rw [hd, ha] at h
            simp only [] at h
            by_cases hdelta : |angle_difference achieved
                (normalize_angle (normalize_angle lon - request.sun_offset_deg))| >
                request.tolerance_deg
            · rw [if_pos hdelta] at h
              simp at h
            · rw [if_neg hdelta] at h
              simp only [Except.ok.injEq] at h
              refine ⟨lon, result, log2, hwin2, rfl, hl, ?_, design_jd, achieved,
                hd, ha, not_lt.1 hdelta, h.symm⟩
              unfold calculate_design_time_endpoint
              rw [if_neg hwin, hb]
              simp only []
              rw [hl]
              simp only []
              rw [hd, ha]
              simp only []
              rw [if_neg hdelta]

/-- Every error the endpoint produces is either a `bad_request` or a
`no_convergence`. -/
theorem endpoint_error_cases {oracle : SunOracle} {request : DesignTimeRequest}
    {err : ApiError}
    (h : (calculate_design_time_endpoint oracle request).1 = .error err) :
    (∃ msg, err = .badRequest msg) ∨ (∃ msg, err = .noConvergence msg) := by
  by_cases hwin : request.search_window_days.min ≥ request.search_window_days.max
  · unfold calculate_design_time_endpoint at h
    rw [if_pos hwin] at h
    simp only [Except.error.injEq] at h
    exact .inl ⟨windowErrMsg, h.symm⟩
  · cases hb : oracle request.birth_jd_ut with
    | error msg =>
      unfold calculate_design_time_endpoint at h
      rw [if_neg hwin, hb] at h
      simp only [Except.error.injEq] at h
      exact .inl ⟨birthErrMsg msg, h.symm⟩
    | ok lon =>
      rcases hl : solverLoop oracle
          (normalize_angle (normalize_angle lon - request.sun_offset_deg))
          request.tolerance_deg request.max_iter 0
          (request.birth_jd_ut - (request.search_window_days.max : ℚ))
          (request.birth_jd_ut - (request.search_window_days.min : ℚ))
          none none [request.birth_jd_ut] with ⟨res, log2⟩
      unfold calculate_design_time_endpoint at h
      rw [if_neg hwin, hb] at h
      simp only [] at h
      rw [hl] at h
      cases res with
      | error msg =>
        simp only [] at h
        simp only [Except.error.injEq] at h
        exact .inl ⟨msg, h.symm⟩
      | ok result =>
        simp only [] at h
        cases hd : result.design_jd_ut with
        | none =>
          rw [hd] at h
          simp only [Except.error.injEq] at h
          exact .inr ⟨noConvIterMsg, h.symm⟩
        | some design_jd =>
          cases ha : result.achieved_sun_lon with
          | none =>
            rw [hd, ha] at h
            simp only [Except.error.injEq] at h
            exact .inr ⟨noConvIterMsg, h.symm⟩
          | some achieved =>
            rw [hd, ha] at h
            simp only [] at h
            by_cases hdelta : |angle_difference achieved
                (normalize_angle (normalize_angle lon - request.sun_offset_deg))| >
                request.tolerance_deg
            · rw [if_pos hdelta] at h
              simp only [Except.error.injEq] at h
              exact .inr ⟨noConvDeltaMsg, h.symm⟩
            · rw [if_neg hdelta] at h
              simp at h

/-- Interval monotonicity alone (no candidate hypotheses): on a normal
exit the final bounds sit inside the entry bounds, in order. -/
theorem solverLoop_interval {oracle : SunOracle} {target tol : ℚ} :
    ∀ (fuel iters : ℕ) (s e : ℚ) (d a : Option ℚ) (log : List ℚ)
      (r : LoopResult) (log2 : List ℚ),
      s ≤ e →
      solverLoop oracle target tol fuel iters s e d a log = (.ok r, log2) →
      s ≤ r.search_start_jd ∧ r.search_end_jd ≤ e ∧
      r.search_start_jd ≤ r.search_end_jd := by
  intro fuel
  induction fuel with
  | zero =>
    intro iters s e d a log r log2 hse h
    simp only [solverLoop, Prod.mk.injEq, Except.ok.injEq] at h
    rw [← h.1]
    exact ⟨le_refl _, le_refl _, hse⟩
  | succ f ih =>
    intro iters s e d a log r log2 hse h
    have hmid := mid_between hse
    rcases hp : iterStep oracle target tol s e d a log with ⟨out, log1⟩
    cases out with
    | oracleFail msg => rw [solverLoop_fail hp] at h; simp at h
    | brk dv av =>
      rw [solverLoop_brk hp] at h
      simp only [Prod.mk.injEq, Except.ok.injEq] at h
      rw [← h.1]
      exact ⟨le_refl _, le_refl _, hse⟩
    | next s2 e2 d2 a2 =>
      rw [solverLoop_next hp] at h
      have hbounds : s ≤ s2 ∧ e2 ≤ e ∧ s2 ≤ e2 := by
        rcases iterStep_next_bounds hp with ⟨h1, h2⟩ | ⟨h1, h2⟩
        · rw [h1, h2]; exact ⟨le_refl _, hmid.2, hmid.1⟩
        · rw [h1, h2]; exact ⟨hmid.1, le_refl _, hmid.2⟩
      obtain ⟨k1, k2, k3⟩ :=
        ih (iters + 1) s2 e2 d2 a2 log1 r log2 hbounds.2.2 h
      exact ⟨le_trans hbounds.1 k1, le_trans k2 hbounds.2.1, k3⟩

/-- Whatever the loop's outcome, the endpoint's query log is the loop's
query log (which itself starts with the birth query). -/
theorem endpoint_log_eq {oracle : SunOracle} {request : DesignTimeRequest}
    {lon : ℚ} {res : Except String LoopResult} {log2 : List ℚ}
    (hwin : ¬ request.search_window_days.min ≥ request.search_window_days.max)
    (hb : oracle request.birth_jd_ut = .ok lon)
    (hl : solverLoop oracle
        (normalize_angle (normalize_angle lon - request.sun_offset_deg))
        request.tolerance_deg request.max_iter 0
        (request.birth_jd_ut - (request.search_window_days.max : ℚ))
        (request.birth_jd_ut - (request.search_window_days.min : ℚ))
        none none [request.birth_jd_ut] = (res, log2)) :
    (calculate_design_time_endpoint oracle request).2 = log2 := by
  unfold calculate_design_time_endpoint
  rw [if_neg hwin, hb]
  simp only []
  rw [hl]
  cases res with
  | error msg => rfl
  | ok result =>
    simp only []
    cases hd : result.design_jd_ut with
    | none =>
      cases ha : result.achieved_sun_lon with
      | none => rfl
      | some achieved => rfl
    | some design_jd =>
      cases ha : result.achieved_sun_lon with
      | none => rfl
      | some achieved =>
        simp only []
        split <;> rfl

/- ### A concrete convergent run shared by several witnesses -/

/-- Full evaluation of the convergent fixture against the identity
oracle: target 272, break in iteration 4 at Julian day 272.5. -/
theorem reqConvergent_run :
    calculate_design_time_endpoint identityOracle reqConvergent =
      (.ok ⟨360, 545 / 2, 272, 545 / 2, 1 / 2, 4⟩,
        [360, 270, 280, 275, 545 / 2]) := by
  have h1 : iterStep identityOracle 272 1 250 290 none none [360] =
      (.next 270 290 none none, [360, 270]) := by
    norm_num [iterStep, midStep, identityOracle, numericFloor,
      angle_within_tolerance, angle_difference, normalize_angle, pymod,
      abs_of_nonneg, abs_of_nonpos]
  have h2 : iterStep identityOracle 272 1 270 290 none none [360, 270] =
      (.next 270 280 none none, [360, 270, 280]) := by
    norm_num [iterStep, midStep, identityOracle, numericFloor,
      angle_within_tolerance, angle_difference, normalize_angle, pymod,
      abs_of_nonneg, abs_of_nonpos]
  have h3 : iterStep identityOracle 272 1 270 280 none none [360, 270, 280] =
      (.next 270 275 none none, [360, 270, 280, 275]) := by
    norm_num [iterStep, midStep, identityOracle, numericFloor,
      angle_within_tolerance, angle_difference, normalize_angle, pymod,
      abs_of_nonneg, abs_of_nonpos]
  have h4 : iterStep identityOracle 272 1 270 275 none none
      [360, 270, 280, 275] =
      (.brk (545 / 2) (545 / 2), [360, 270, 280, 275, 545 / 2]) := by
    norm_num [iterStep, midStep, identityOracle, numericFloor,
      angle_within_tolerance, angle_difference, normalize_angle, pymod,
      abs_of_nonneg, abs_of_nonpos]
  have hloop : solverLoop identityOracle 272 1 80 0 250 290 none none [360] =
      (.ok ⟨4, 270, 275, some (545 / 2), some (545 / 2)⟩,
        [360, 270, 280, 275, 545 / 2]) := by
    rw [show (80 : ℕ) = 79 + 1 from rfl, solverLoop_next h1,
      show (79 : ℕ) = 78 + 1 from rfl, solverLoop_next h2,
      show (78 : ℕ) = 77 + 1 from rfl, solverLoop_next h3,
      show (77 : ℕ) = 76 + 1 from rfl, solverLoop_brk h4]
  norm_num [calculate_design_time_endpoint, reqConvergent, identityOracle,
    normalize_angle, pymod, hloop, angle_difference, abs_of_nonneg]

theorem reqConvergent_run_fst :
    (calculate_design_time_endpoint identityOracle reqConvergent).1 =
      .ok ⟨360, 545 / 2, 272, 545 / 2, 1 / 2, 4⟩ := by
  rw [reqConvergent_run]

/- ### The claims -/

/-- Claim C1: against the deterministic linear oracle
`longitude(t) = normalize(rate * (t - t0))` with `rate > 0`, given a
valid window (`min < max`), positive tolerance and a sufficient budget
(`k + 1 ≤ max_iter` iterations where `rate * window_width ≤ tol * 2 ^ k`)
whose search interval contains a true root, the endpoint returns success
with an achieved longitude within `tolerance_deg` of the target
`normalize(birth_angle - sun_offset_deg)`. -/
theorem C1_solver_converges_linear_oracle
    {rate t0 : ℚ} {request : DesignTimeRequest} {troot : ℚ} {k : ℕ}
    (hrate : 0 < rate)
    (hwin : request.search_window_days.min < request.search_window_days.max)
    (htol : 0 < request.tolerance_deg)
    (hkiter : k + 1 ≤ request.max_iter)
    (hlo : request.birth_jd_ut - (request.search_window_days.max : ℚ) ≤ troot)
    (hhi : troot ≤ request.birth_jd_ut - (request.search_window_days.min : ℚ))
    (hroot : sunAt rate t0 troot =
      normalize_angle (sunAt rate t0 request.birth_jd_ut -
        request.sun_offset_deg))
    (hbudget : rate * ((request.search_window_days.max : ℚ) -
        (request.search_window_days.min : ℚ)) ≤
      request.tolerance_deg * 2 ^ k) :
    ∃ resp : DesignTimeResponse,
      (calculate_design_time_endpoint (linearOracle rate t0) request).1 =
        .ok resp ∧
      resp.target_sun_lon =
        normalize_angle (sunAt rate t0 request.birth_jd_ut -
          request.sun_offset_deg) ∧
      |angle_difference resp.achieved_sun_lon resp.target_sun_lon| ≤
        request.tolerance_deg := by
  have ht0 : 0 ≤ normalize_angle (sunAt rate t0 request.birth_jd_ut -
      request.sun_offset_deg) := normalize_angle_nonneg _
  have ht1 : normalize_angle (sunAt rate t0 request.birth_jd_ut -
      request.sun_offset_deg) < 360 := normalize_angle_lt _
  have hwidth : rate * ((request.birth_jd_ut -
        (request.search_window_days.min : ℚ)) -
      (request.birth_jd_ut - (request.search_window_days.max : ℚ))) ≤
      request.tolerance_deg * 2 ^ k := by
    have hrw : (request.birth_jd_ut - (request.search_window_days.min : ℚ)) -
        (request.birth_jd_ut - (request.search_window_days.max : ℚ)) =
        (request.search_window_days.max : ℚ) -
          (request.search_window_days.min : ℚ) := by ring
    rw [hrw]
    exact hbudget
  obtain ⟨r, log2, hloop, dv, av, hdv, hav, hbound⟩ :=
    solverLoop_linear hrate htol ht0 ht1 request.max_iter k 0
      (request.birth_jd_ut - (request.search_window_days.max : ℚ))
      (request.birth_jd_ut - (request.search_window_days.min : ℚ))
      none none [request.birth_jd_ut] (by omega)
      ⟨troot, hlo, hhi, hroot⟩ hwidth
  refine ⟨⟨request.birth_jd_ut, dv,
    normalize_angle (sunAt rate t0 request.birth_jd_ut -
      request.sun_offset_deg), av,
    |angle_difference av (normalize_angle (sunAt rate t0 request.birth_jd_ut -
      request.sun_offset_deg))|, r.iterations⟩, ?_, rfl, hbound⟩
  unfold calculate_design_time_endpoint
  rw [if_neg (not_le.2 hwin)]
  simp only [linearOracle]
  rw [normalize_sunAt]
  rw [hloop]
  simp only []
  rw [hdv, hav]
  simp only []
  rw [if_neg (not_lt.2 hbound)]

/-- Witness for C1: rate 1, phase 0, the convergent fixture, root at
Julian day 272, budget exponent 6. -/
theorem C1_solver_converges_linear_oracle_witness :
    ∃ resp : DesignTimeResponse,
      (calculate_design_time_endpoint (linearOracle 1 0) reqConvergent).1 =
        .ok resp ∧
      resp.target_sun_lon =
        normalize_angle (sunAt 1 0 reqConvergent.birth_jd_ut -
          reqConvergent.sun_offset_deg) ∧
      |angle_difference resp.achieved_sun_lon resp.target_sun_lon| ≤
        reqConvergent.tolerance_deg :=
  @C1_solver_converges_linear_oracle 1 0 reqConvergent 272 6
    (by norm_num) (by norm_num [reqConvergent]) (by norm_num [reqConvergent])
    (by norm_num [reqConvergent]) (by norm_num [reqConvergent])
    (by norm_num [reqConvergent])
    (by norm_num [reqConvergent, sunAt, normalize_angle, pymod])
    (by norm_num [reqConvergent])

/-- Claim C2 as stated is false: already with `max_iter = 1` a run makes
two oracle queries (the birth query plus one midpoint query). -/
theorem C2_max_iterations_counterexample :
    ¬ (((calculate_design_time_endpoint zeroOracle reqOneIter).2).length ≤
        reqOneIter.max_iter) := by
  have h1 : iterStep zeroOracle 272 (1 / 100) 250 290 none none [360] =
      (.next 250 270 none none, [360, 270]) := by
    norm_num [iterStep, midStep, zeroOracle, numericFloor,
      angle_within_tolerance, angle_difference, normalize_angle, pymod,
      abs_of_nonneg, abs_of_nonpos]
  have hloop : solverLoop zeroOracle 272 (1 / 100) 1 0 250 290 none none
      [360] = (.ok ⟨1, 250, 270, none, none⟩, [360, 270]) := by
    rw [show (1 : ℕ) = 0 + 1 from rfl, solverLoop_next h1]
    rfl
  have hrun : (calculate_design_time_endpoint zeroOracle reqOneIter).2 =
      [360, 270] := by
    norm_num [calculate_design_time_endpoint, reqOneIter, zeroOracle,
      normalize_angle, pymod, hloop]
  rw [hrun]
  norm_num [reqOneIter]

/-- Claim C2 amended: a single invocation makes at most
`2 * max_iter + 1` oracle queries — one birth query plus at most two
per loop iteration (the small-window pass can query the midpoint twice). -/
theorem C2_query_budget_amended (oracle : SunOracle)
    (request : DesignTimeRequest) :
    ((calculate_design_time_endpoint oracle request).2).length ≤
      2 * request.max_iter + 1 := by
  by_cases hwin : request.search_window_days.min ≥ request.search_window_days.max
  · unfold calculate_design_time_endpoint
    rw [if_pos hwin]
    simp
  · cases hb : oracle request.birth_jd_ut with
    | error msg =>
      unfold calculate_design_time_endpoint
      rw [if_neg hwin, hb]
      simp
    | ok lon =>
      rcases hl : solverLoop oracle
          (normalize_angle (normalize_angle lon - request.sun_offset_deg))
          request.tolerance_deg request.max_iter 0
          (request.birth_jd_ut - (request.search_window_days.max : ℚ))
          (request.birth_jd_ut - (request.search_window_days.min : ℚ))
          none none [request.birth_jd_ut] with ⟨res, log2⟩
      have hlen := @solverLoop_log_length oracle
        (normalize_angle (normalize_angle lon - request.sun_offset_deg))
        request.tolerance_deg request.max_iter 0
        (request.birth_jd_ut - (request.search_window_days.max : ℚ))
        (request.birth_jd_ut - (request.search_window_days.min : ℚ))
        none none [request.birth_jd_ut]
      rw [hl] at hlen
      rw [endpoint_log_eq hwin hb hl]
      have hlen2 : log2.length ≤ 1 + 2 * request.max_iter := by
        simpa using hlen
      omega

/-- Claim C3 as stated is false: an invalid window and an oracle failure
are both reported through `raise_bad_request`, with the same error code
(`bad_request`) and status (400) — only non-convergence gets a distinct
code, so the three failure kinds do not surface as three distinct typed
outcomes. -/
theorem C3_distinct_errors_counterexample :
    (calculate_design_time_endpoint failingOracle reqInvertedWindow).1 =
      .error (ApiError.badRequest windowErrMsg) ∧
    (calculate_design_time_endpoint failingOracle reqConvergent).1 =
      .error (ApiError.badRequest (birthErrMsg failText)) ∧
    (ApiError.badRequest windowErrMsg).code =
      (ApiError.badRequest (birthErrMsg failText)).code ∧
    (ApiError.badRequest windowErrMsg).status =
      (ApiError.badRequest (birthErrMsg failText)).status := by
  refine ⟨?_, ?_, rfl, rfl⟩
  · unfold calculate_design_time_endpoint
    rw [if_pos (by norm_num [reqInvertedWindow])]
  · unfold calculate_design_time_endpoint
    rw [if_neg (by norm_num [reqConvergent])]
    rfl

/-- Claim C3 amended: the solver's failures surface as exactly two
distinct typed outcomes — invalid window and oracle failures as
`bad_request` (HTTP 400), non-convergence as `no_convergence` (HTTP
422); the two 400 cases are distinguished only by message text. -/
theorem C3_error_codes_amended (oracle : SunOracle)
    (request : DesignTimeRequest) (err : ApiError)
    (h : (calculate_design_time_endpoint oracle request).1 = .error err) :
    (err.code = ErrorCode.BAD_REQUEST ∧ err.status = 400) ∨
    (err.code = ErrorCode.NO_CONVERGENCE ∧ err.status = 422) := by
  rcases endpoint_error_cases h with ⟨msg, he⟩ | ⟨msg, he⟩ <;> rw [he]
  · exact .inl ⟨rfl, rfl⟩
  · exact .inr ⟨rfl, rfl⟩

theorem C3_error_codes_amended_witness :
    ((ApiError.badRequest windowErrMsg).code = ErrorCode.BAD_REQUEST ∧
      (ApiError.badRequest windowErrMsg).status = 400) ∨
    ((ApiError.badRequest windowErrMsg).code = ErrorCode.NO_CONVERGENCE ∧
      (ApiError.badRequest windowErrMsg).status = 422) := by
  refine C3_error_codes_amended zeroOracle reqInvertedWindow _ ?_
  unfold calculate_design_time_endpoint
  rw [if_pos (by norm_num [reqInvertedWindow])]

/-- Claim C4 as stated is false: in a small-window iteration whose
tolerance check fails, the loop body queries the oracle twice — both
times at the same midpoint — not exactly once. -/
theorem C4_single_query_counterexample :
    (1 : ℚ) / 2000000 - 0 < numericFloor ∧
    ((iterStep zeroOracle 100 (1 / 100) 0 (1 / 2000000) none none []).2).length
      = 2 ∧
    ¬ (((iterStep zeroOracle 100 (1 / 100) 0 (1 / 2000000) none none
        []).2).length = 1) := by
  have hrun : iterStep zeroOracle 100 (1 / 100) 0 (1 / 2000000) none none [] =
      (.next (1 / 4000000) (1 / 2000000) (some (1 / 4000000)) (some 0),
        [1 / 4000000, 1 / 4000000]) := by
    norm_num [iterStep, midStep, zeroOracle, numericFloor,
      angle_within_tolerance, angle_difference, normalize_angle, pymod,
      abs_of_nonneg, abs_of_nonpos]
  rw [hrun]
  norm_num [numericFloor]

/-- Claim C4 amended: in a loop iteration whose interval width is below
the 1e-6-day floor, the solver queries the oracle at the midpoint and
checks tolerance; if satisfied it accepts that midpoint and stops,
having queried once; if not, it queries the same midpoint a second
time, records it as the pending candidate, and continues bisecting; a
pending candidate survives budget exhaustion untouched (the final delta
check then rejects it). -/
theorem C4_small_window_amended (oracle : SunOracle)
    (target tol s e : ℚ) (d a : Option ℚ) (log : List ℚ) (lon : ℚ)
    (hsmall : e - s < numericFloor)
    (hok : oracle ((s + e) / 2) = .ok lon) :
    (angle_within_tolerance (normalize_angle lon) target tol = true →
      iterStep oracle target tol s e d a log =
        (.brk ((s + e) / 2) (normalize_angle lon), log ++ [(s + e) / 2])) ∧
    (angle_within_tolerance (normalize_angle lon) target tol = false →
      (iterStep oracle target tol s e d a log).2 =
        log ++ [(s + e) / 2, (s + e) / 2] ∧
      ∃ s2 e2, (iterStep oracle target tol s e d a log).1 =
        .next s2 e2 (some ((s + e) / 2)) (some (normalize_angle lon))) ∧
    (∀ (target2 tol2 : ℚ) (iters : ℕ) (c av : ℚ) (log3 : List ℚ),
      solverLoop oracle target2 tol2 0 iters s e (some c) (some av) log3 =
        (.ok ⟨iters, s, e, some c, some av⟩, log3)) := by
  refine ⟨?_, ?_, fun target2 tol2 iters c av log3 => rfl⟩
  · intro hcond
    simp only [iterStep]
    rw [if_pos hsmall, hok]
    simp only []
    rw [if_pos hcond]
  · intro hcond
    have hstep : iterStep oracle target tol s e d a log =
        midStep oracle target tol s e (some ((s + e) / 2))
          (some (normalize_angle lon)) (log ++ [(s + e) / 2]) := by
      simp only [iterStep]
      rw [if_pos hsmall, hok]
      simp only []
      rw [if_neg (by rw [hcond]; exact Bool.false_ne_true)]
    have hnottol : ¬ (|angle_difference (normalize_angle lon) target| ≤ tol) := by
      intro hc
      rw [show angle_within_tolerance (normalize_angle lon) target tol = true by
        simpa [angle_within_tolerance] using hc] at hcond
      simp at hcond
    constructor
    · rw [hstep, midStep_log]
      simp
    · rw [hstep]
      simp only [midStep]
      rw [hok]
      simp only []
      rw [if_neg hnottol]
      by_cases hpos : angle_difference (normalize_angle lon) target > 0
      · rw [if_pos hpos]
        exact ⟨s, (s + e) / 2, rfl⟩
      · rw [if_neg hpos]
        exact ⟨(s + e) / 2, e, rfl⟩

theorem C4_small_window_amended_witness :
    (iterStep zeroOracle 100 (1 / 100) 0 (1 / 2000000) none none []).2 =
      [] ++ [(0 + 1 / 2000000) / 2, (0 + 1 / 2000000) / 2] ∧
    ∃ s2 e2,
      (iterStep zeroOracle 100 (1 / 100) 0 (1 / 2000000) none none []).1 =
        .next s2 e2 (some ((0 + 1 / 2000000) / 2))
          (some (normalize_angle 0)) := by
  exact (C4_small_window_amended zeroOracle 100 (1 / 100) 0 (1 / 2000000)
    none none [] 0 (by norm_num [numericFloor]) rfl).2.1
    (by norm_num [angle_within_tolerance, angle_difference, normalize_angle,
      pymod, abs_of_nonneg, abs_of_nonpos])

/-- Claim C5: a request whose window has `min ≥ max` is rejected as a
bad request before any oracle call: the query log is empty. -/
theorem C5_invalid_window_no_queries (oracle : SunOracle)
    (request : DesignTimeRequest)
    (h : request.search_window_days.max ≤ request.search_window_days.min) :
    calculate_design_time_endpoint oracle request =
      (.error (.badRequest windowErrMsg), []) := by
  unfold calculate_design_time_endpoint
  rw [if_pos h]

theorem C5_invalid_window_no_queries_witness :
    calculate_design_time_endpoint zeroOracle reqInvertedWindow =
      (.error (.badRequest windowErrMsg), []) :=
  C5_invalid_window_no_queries zeroOracle reqInvertedWindow
    (by norm_num [reqInvertedWindow])

/-- Claim C6: every success response carries
`delta_deg = |angle_difference achieved target|`, which is nonnegative,
at most 180 and at most the tolerance (a final recomputed delta above
tolerance is rejected as non-convergence instead), and an iteration
count of at least 1. -/
theorem C6_success_result_properties (oracle : SunOracle)
    (request : DesignTimeRequest) (resp : DesignTimeResponse)
    (h : (calculate_design_time_endpoint oracle request).1 = .ok resp) :
    resp.delta_deg =
      |angle_difference resp.achieved_sun_lon resp.target_sun_lon| ∧
    0 ≤ resp.delta_deg ∧ resp.delta_deg ≤ 180 ∧
    resp.delta_deg ≤ request.tolerance_deg ∧ 1 ≤ resp.iterations := by
  obtain ⟨lon, r, log2, hwin, hb, hl, hlog, design_jd, achieved, hd, ha,
    hbound, hresp⟩ := endpoint_ok_cases h
  subst hresp
  refine ⟨rfl, abs_nonneg _, abs_angle_difference_le _ _, hbound, ?_⟩
  rcases solverLoop_iterations request.max_iter 0 _ _ none none _ r log2 hl
    with ⟨_, hdnone, _⟩ | h1
  · rw [hd] at hdnone
    simp at hdnone
  · exact h1

theorem C6_success_result_properties_witness :
    ∃ resp : DesignTimeResponse,
      (calculate_design_time_endpoint identityOracle reqConvergent).1 =
        .ok resp ∧
      resp.delta_deg =
        |angle_difference resp.achieved_sun_lon resp.target_sun_lon| ∧
      0 ≤ resp.delta_deg ∧ resp.delta_deg ≤ 180 ∧
      resp.delta_deg ≤ reqConvergent.tolerance_deg ∧ 1 ≤ resp.iterations :=
  ⟨_, reqConvergent_run_fst,
    C6_success_result_properties identityOracle reqConvergent _
      reqConvergent_run_fst⟩

/-- Claim C7: `normalize_angle` maps every rational input — negative or
arbitrarily large — into [0, 360), and is idempotent. -/
theorem C7_normalize_range_idem (x : ℚ) :
    0 ≤ normalize_angle x ∧ normalize_angle x < 360 ∧
    normalize_angle (normalize_angle x) = normalize_angle x :=
  ⟨normalize_angle_nonneg x, normalize_angle_lt x, normalize_angle_idem x⟩

/-- Claim C8: ephemeris-path initialization is idempotent — the first
call sets the guard flag, and every later call (even under a changed
`SWEPH_PATH` environment, which is therefore never re-read) leaves the
state exactly as after the first call, for any number of repetitions. -/
theorem C8_initialize_idempotent (env1 env2 : Option String) (s : EpheState) :
    initialize_ephemeris_path env2 (initialize_ephemeris_path env1 s) =
      initialize_ephemeris_path env1 s ∧
    (initialize_ephemeris_path env1 s).ephe_path_initialized = true ∧
    ∀ n : ℕ, (fun t => initialize_ephemeris_path env2 t)^[n]
        (initialize_ephemeris_path env1 s) =
      initialize_ephemeris_path env1 s := by
  have hnoop : ∀ (env : Option String) (t : EpheState),
      t.ephe_path_initialized = true → initialize_ephemeris_path env t = t := by
    intro env t ht
    unfold initialize_ephemeris_path
    rw [if_pos ht]
  have hflag : (initialize_ephemeris_path env1 s).ephe_path_initialized =
      true := by
    unfold initialize_ephemeris_path
    split
    · rename_i hinit; exact hinit
    · rfl
  refine ⟨hnoop env2 _ hflag, hflag, ?_⟩
  intro n
  induction n with
  | zero => rfl
  | succ m ihm =>
    rw [Function.iterate_succ_apply', ihm]
    exact hnoop env2 _ hflag

/-- Claim C9: on success the design instant lies inside the initial
search interval, every queried midpoint (the query log behind the birth
query) lies inside it, and along the loop the interval bounds only move
inward and stay ordered. -/
theorem C9_success_within_window :
    (∀ (oracle : SunOracle) (request : DesignTimeRequest)
        (resp : DesignTimeResponse),
      (calculate_design_time_endpoint oracle request).1 = .ok resp →
      request.birth_jd_ut - (request.search_window_days.max : ℚ) ≤
        resp.design_jd_ut ∧
      resp.design_jd_ut ≤
        request.birth_jd_ut - (request.search_window_days.min : ℚ) ∧
      ∀ q ∈ ((calculate_design_time_endpoint oracle request).2).tail,
        request.birth_jd_ut - (request.search_window_days.max : ℚ) ≤ q ∧
        q ≤ request.birth_jd_ut - (request.search_window_days.min : ℚ)) ∧
    (∀ (oracle : SunOracle) (target tol : ℚ) (fuel iters : ℕ) (s e : ℚ)
        (d a : Option ℚ) (log : List ℚ) (r : LoopResult) (log2 : List ℚ),
      s ≤ e →
      solverLoop oracle target tol fuel iters s e d a log = (.ok r, log2) →
      s ≤ r.search_start_jd ∧ r.search_end_jd ≤ e ∧
      r.search_start_jd ≤ r.search_end_jd) := by
  constructor
  · intro oracle request resp h
    obtain ⟨lon, r, log2, hwin, hb, hl, hlog, design_jd, achieved, hd, ha,
      hbound, hresp⟩ := endpoint_ok_cases h
    have hse : request.birth_jd_ut - (request.search_window_days.max : ℚ) ≤
        request.birth_jd_ut - (request.search_window_days.min : ℚ) := by
      have hc : (request.search_window_days.min : ℚ) ≤
          (request.search_window_days.max : ℚ) := by
        exact_mod_cast le_of_lt hwin
      linarith
    have hshape := solverLoop_ok_shape request.max_iter 0 _ _ none none _ r
      log2 (le_refl _) (le_refl _) hse
      (by intro dv hdv; simp at hdv) (by intro av hav; simp at hav) hl
    have hdes := hshape.2.2.2.1 design_jd hd
    obtain ⟨rest, hrest, hmem⟩ := solverLoop_log_suffix request.max_iter 0
      (request.birth_jd_ut - (request.search_window_days.max : ℚ))
      (request.birth_jd_ut - (request.search_window_days.min : ℚ))
      none none [request.birth_jd_ut] (le_refl _) (le_refl _) hse
    rw [hl] at hrest
    subst hresp
    refine ⟨hdes.1, hdes.2, ?_⟩
    intro q hq
    rw [hlog, show log2 = [request.birth_jd_ut] ++ rest from hrest] at hq
    simp only [List.singleton_append, List.tail_cons] at hq
    exact hmem q hq
  · intro oracle target tol fuel iters s e d a log r log2 hse hl
    exact solverLoop_interval fuel iters s e d a log r log2 hse hl

theorem C9_success_within_window_witness :
    ∃ resp : DesignTimeResponse,
      (calculate_design_time_endpoint identityOracle reqConvergent).1 =
        .ok resp ∧
      reqConvergent.birth_jd_ut -
          (reqConvergent.search_window_days.max : ℚ) ≤ resp.design_jd_ut ∧
      resp.design_jd_ut ≤ reqConvergent.birth_jd_ut -
        (reqConvergent.search_window_days.min : ℚ) :=
  ⟨_, reqConvergent_run_fst,
    (C9_success_within_window.1 identityOracle reqConvergent _
      reqConvergent_run_fst).1,
    (C9_success_within_window.1 identityOracle reqConvergent _
      reqConvergent_run_fst).2.1⟩

/-- Claim C10: on success both the target and the achieved longitude
are normalized angles in [0, 360) — every longitude obtained from the
oracle passes through `normalize_angle` before use, so both are fixed
points of `normalize_angle`. -/
theorem C10_success_normalized (oracle : SunOracle)
    (request : DesignTimeRequest) (resp : DesignTimeResponse)
    (h : (calculate_design_time_endpoint oracle request).1 = .ok resp) :
    0 ≤ resp.target_sun_lon ∧ resp.target_sun_lon < 360 ∧
    normalize_angle resp.target_sun_lon = resp.target_sun_lon ∧
    0 ≤ resp.achieved_sun_lon ∧ resp.achieved_sun_lon < 360 ∧
    normalize_angle resp.achieved_sun_lon = resp.achieved_sun_lon := by
  obtain ⟨lon, r, log2, hwin, hb, hl, hlog, design_jd, achieved, hd, ha,
    hbound, hresp⟩ := endpoint_ok_cases h
  have hse : request.birth_jd_ut - (request.search_window_days.max : ℚ) ≤
      request.birth_jd_ut - (request.search_window_days.min : ℚ) := by
    have hc : (request.search_window_days.min : ℚ) ≤
        (request.search_window_days.max : ℚ) := by
      exact_mod_cast le_of_lt hwin
    linarith
  have hshape := solverLoop_ok_shape request.max_iter 0 _ _ none none _ r
    log2 (le_refl _) (le_refl _) hse
    (by intro dv hdv; simp at hdv) (by intro av hav; simp at hav) hl
  have hach := hshape.2.2.2.2 achieved ha
  subst hresp
  exact ⟨normalize_angle_nonneg _, normalize_angle_lt _,
    normalize_angle_idem _, hach.1, hach.2,
    normalize_angle_eq_of_cong (angCong.refl _) hach.1 hach.2⟩

theorem C10_success_normalized_witness :
    ∃ resp : DesignTimeResponse,
      (calculate_design_time_endpoint identityOracle reqConvergent).1 =
        .ok resp ∧
      0 ≤ resp.target_sun_lon ∧ resp.target_sun_lon < 360 ∧
      0 ≤ resp.achieved_sun_lon ∧ resp.achieved_sun_lon < 360 :=
  ⟨_, reqConvergent_run_fst,
    (C10_success_normalized identityOracle reqConvergent _
      reqConvergent_run_fst).1,
    (C10_success_normalized identityOracle reqConvergent _
      reqConvergent_run_fst).2.1,
    (C10_success_normalized identityOracle reqConvergent _
      reqConvergent_run_fst).2.2.2.1,
    (C10_success_normalized identityOracle reqConvergent _
      reqConvergent_run_fst).2.2.2.2.1⟩
